import Mathlib

/-!
Shallow embedding of the rust-graphql-router data-structure library:
`src/models/src/tree.rs` (Tree, TreeIterator, TreeIterationState, has_prefix)
and `src/model/src/graph.rs` (Graph, Node, Target, Link, Relationship).
Rust references become values, `Vec` becomes `List`, `VecDeque` used as a
FIFO queue becomes a `List` popped at the head and pushed at the tail, and
the lazy `Iterator` is modelled by the total function `drain` that collects
every item the iterator would yield, together with the single-step
`TreeIterator.next` mirroring the Rust `next`.
-/

set_option maxHeartbeats 1000000

universe u

namespace RouterLib

/-- Rust `Tree<T>` of tree.rs: a value and an ordered list of child trees. -/
inductive Tree (α : Type u) : Type u where
  | mk (value : α) (children : List (Tree α))

namespace Tree

variable {α : Type u}

/-- The `value` field of a `Tree`. -/
def value : Tree α → α
  | mk v _ => v

/-- The `children` field of a `Tree`. -/
def children : Tree α → List (Tree α)
  | mk _ cs => cs

@[simp] theorem value_mk (v : α) (cs : List (Tree α)) : value (mk v cs) = v := rfl

@[simp] theorem children_mk (v : α) (cs : List (Tree α)) : children (mk v cs) = cs := rfl

end Tree

mutual

/-- Number of nodes of a tree (not in the source; used to measure queues). -/
def Tree.size {α : Type u} : Tree α → Nat
  | .mk _ cs => 1 + Tree.sizeList cs

/-- Total number of nodes of a list of trees. -/
def Tree.sizeList {α : Type u} : List (Tree α) → Nat
  | [] => 0
  | t :: ts => Tree.size t + Tree.sizeList ts

end

mutual

/-- All nodes (subtree occurrences) of a tree, root first. -/
def Tree.nodes {α : Type u} : Tree α → List (Tree α)
  | .mk v cs => .mk v cs :: Tree.nodesList cs

/-- All nodes of a list of trees, in order. -/
def Tree.nodesList {α : Type u} : List (Tree α) → List (Tree α)
  | [] => []
  | t :: ts => Tree.nodes t ++ Tree.nodesList ts

end

/-- Rust `TreeIterationState<'a, T>` of tree.rs: a reference to the tree node being
visited plus an optional boxed parent state. -/
inductive TreeIterationState (α : Type u) : Type u where
  | mk (tree : Tree α) (parent : Option (TreeIterationState α))

namespace TreeIterationState

variable {α : Type u}

/-- The `tree` field of a state. -/
def tree : TreeIterationState α → Tree α
  | mk t _ => t

/-- The `parent` field of a state. -/
def parent : TreeIterationState α → Option (TreeIterationState α)
  | mk _ p => p

@[simp] theorem tree_mk (t : Tree α) (p : Option (TreeIterationState α)) :
    tree (mk t p) = t := rfl

@[simp] theorem parent_mk (t : Tree α) (p : Option (TreeIterationState α)) :
    parent (mk t p) = p := rfl

/-- Rust `TreeIterationState::path_to_root` of tree.rs: walk the parent chain,
pushing each parent's tree, until a state with no parent is reached. -/
def path_to_root : TreeIterationState α → List (Tree α)
  | mk _ none => []
  | mk _ (some p) => tree p :: path_to_root p

@[simp] theorem path_to_root_none (t : Tree α) : path_to_root (mk t none) = [] := rfl

@[simp] theorem path_to_root_some (t : Tree α) (p : TreeIterationState α) :
    path_to_root (mk t (some p)) = tree p :: path_to_root p := rfl

end TreeIterationState

namespace TreeIterator

variable {α : Type u}

/-- Rust `TreeIterator::next` of tree.rs: pop states from the front of the queue
until one satisfies the condition; push its children (with the popped state
as parent) to the back and yield it. Returns the yielded state and the
updated queue, or `none` when the queue is exhausted. -/
def next (cond : α → Bool) :
    List (TreeIterationState α) →
      Option (TreeIterationState α × List (TreeIterationState α))
  | [] => none
  | s :: rest =>
    if cond (Tree.value (TreeIterationState.tree s)) then
      some (s, rest ++ (Tree.children (TreeIterationState.tree s)).map
        (fun c => TreeIterationState.mk c (some s)))
    else next cond rest

/-- Total tree size carried by a queue of states. -/
def queueSize (q : List (TreeIterationState α)) : Nat :=
  (q.map (fun s => Tree.size (TreeIterationState.tree s))).sum

@[simp] theorem queueSize_nil : queueSize ([] : List (TreeIterationState α)) = 0 := rfl

@[simp] theorem queueSize_cons (s : TreeIterationState α) (q : List (TreeIterationState α)) :
    queueSize (s :: q) = Tree.size (TreeIterationState.tree s) + queueSize q := rfl

theorem queueSize_append (q₁ q₂ : List (TreeIterationState α)) :
    queueSize (q₁ ++ q₂) = queueSize q₁ + queueSize q₂ := by
  simp [queueSize]

theorem sizeList_eq_sum_map (ts : List (Tree α)) :
    Tree.sizeList ts = (ts.map Tree.size).sum := by
  induction ts with
  | nil => simp [Tree.sizeList]
  | cons t ts ih => simp [Tree.sizeList, ih]

theorem size_eq (t : Tree α) :
    Tree.size t = 1 + Tree.sizeList (Tree.children t) := by
  cases t with
  | mk v cs => simp [Tree.size]

theorem size_pos (t : Tree α) : 0 < Tree.size t := by
  rw [size_eq]; omega

theorem queueSize_children (s : TreeIterationState α) :
    queueSize ((Tree.children (TreeIterationState.tree s)).map
        (fun c => TreeIterationState.mk c (some s)))
      = Tree.size (TreeIterationState.tree s) - 1 := by
  have h := size_eq (TreeIterationState.tree s)
  simp only [queueSize, List.map_map]
  have : ((Tree.children (TreeIterationState.tree s)).map
      ((fun st => Tree.size (TreeIterationState.tree st)) ∘
        (fun c => TreeIterationState.mk c (some s))))
      = (Tree.children (TreeIterationState.tree s)).map Tree.size := by
    apply List.map_congr_left
    intro c _
    rfl
  rw [this, ← sizeList_eq_sum_map]
  omega

/-- One successful step of `next` strictly decreases the queue measure. -/
theorem next_queueSize {cond : α → Bool} :
    ∀ {q s q'}, next cond q = some (s, q') → queueSize q' < queueSize q := by
  intro q
  induction q with
  | nil => intro s q' h; simp [next] at h
  | cons s₀ rest ih =>
    intro s q' h
    by_cases hc : cond (Tree.value (TreeIterationState.tree s₀))
    · simp [next, hc] at h
      obtain ⟨-, hq⟩ := h
      subst hq
      rw [queueSize_append, queueSize_children]
      have := size_pos (TreeIterationState.tree s₀)
      simp only [queueSize_cons]
      omega
    · simp [next, hc] at h
      have := ih h
      have := size_pos (TreeIterationState.tree s₀)
      simp only [queueSize_cons]
      omega

/-- Collect every state the iterator yields until `next` returns `none`.
This models running the Rust iterator to exhaustion. -/
def drain (cond : α → Bool) (q : List (TreeIterationState α)) :
    List (TreeIterationState α) :=
  match h : next cond q with
  | none => []
  | some (s, q') => s :: drain cond q'
termination_by queueSize q
decreasing_by exact next_queueSize h

/-- The child states pushed when a state `s` is yielded. -/
def childStates (s : TreeIterationState α) : List (TreeIterationState α) :=
  (Tree.children (TreeIterationState.tree s)).map
    (fun c => TreeIterationState.mk c (some s))

@[simp] theorem next_nil (cond : α → Bool) :
    next cond ([] : List (TreeIterationState α)) = none := rfl

theorem next_cons (cond : α → Bool) (s : TreeIterationState α)
    (rest : List (TreeIterationState α)) :
    next cond (s :: rest) =
      if cond (Tree.value (TreeIterationState.tree s)) then
        some (s, rest ++ childStates s)
      else next cond rest := rfl

theorem drain_eq_none {cond : α → Bool} {q : List (TreeIterationState α)}
    (h : next cond q = none) : drain cond q = [] := by
  rw [drain, h]

theorem drain_eq_some {cond : α → Bool} {q q' : List (TreeIterationState α)}
    {s : TreeIterationState α} (h : next cond q = some (s, q')) :
    drain cond q = s :: drain cond q' := by
  rw [drain, h]

@[simp] theorem drain_nil (cond : α → Bool) :
    drain cond ([] : List (TreeIterationState α)) = [] :=
  drain_eq_none rfl

theorem drain_cons_pos {cond : α → Bool} {s : TreeIterationState α}
    {rest : List (TreeIterationState α)}
    (h : cond (Tree.value (TreeIterationState.tree s)) = true) :
    drain cond (s :: rest) = s :: drain cond (rest ++ childStates s) :=
  drain_eq_some (by rw [next_cons, h]; simp)

theorem drain_cons_neg {cond : α → Bool} {s : TreeIterationState α}
    {rest : List (TreeIterationState α)}
    (h : cond (Tree.value (TreeIterationState.tree s)) = false) :
    drain cond (s :: rest) = drain cond rest := by
  cases hn : next cond rest with
  | none =>
    rw [drain_eq_none hn, drain_eq_none]
    rw [next_cons, h]
    simpa using hn
  | some sq =>
    obtain ⟨s', q'⟩ := sq
    rw [drain_eq_some hn, drain_eq_some (q := s :: rest)]
    rw [next_cons, h]
    simpa using hn

/-- The drained output never exceeds the total number of tree nodes in the
queue. -/
theorem drain_length (cond : α → Bool) (q : List (TreeIterationState α)) :
    (drain cond q).length ≤ queueSize q := by
  cases hn : next cond q with
  | none => rw [drain_eq_none hn]; simp
  | some sq =>
    obtain ⟨s, q'⟩ := sq
    rw [drain_eq_some hn]
    have hlt := next_queueSize hn
    have ih := drain_length cond q'
    simp only [List.length_cons]
    omega
termination_by queueSize q
decreasing_by exact next_queueSize hn

end TreeIterator

namespace Tree

variable {α : Type u}

/-- Rust `TreeIterator::new_with_condition` composed with collecting the iterator:
the queue is seeded with a root state only when the root passes the
condition. -/
def iter_condition (t : Tree α) (cond : α → Bool) : List (TreeIterationState α) :=
  TreeIterator.drain cond
    (if cond (Tree.value t) then [TreeIterationState.mk t none] else [])

/-- Rust `Tree::iter` / `TreeIterator::new`: traversal with the always-true
condition. -/
def iter (t : Tree α) : List (TreeIterationState α) :=
  iter_condition t (fun _ => true)

end Tree

namespace TreeIterator

variable {α : Type u}

/-- Induction principle mirroring the recursion of `drain`. -/
theorem drain_induction {cond : α → Bool}
    {motive : List (TreeIterationState α) → Prop}
    (hnil : motive [])
    (hpos : ∀ s rest, cond (Tree.value (TreeIterationState.tree s)) = true →
      motive (rest ++ childStates s) → motive (s :: rest))
    (hneg : ∀ s rest, cond (Tree.value (TreeIterationState.tree s)) = false →
      motive rest → motive (s :: rest)) :
    ∀ q, motive q
  | [] => hnil
  | s :: rest => by
    cases h : cond (Tree.value (TreeIterationState.tree s)) with
    | true =>
      exact hpos s rest h
        (drain_induction hnil hpos hneg (rest ++ childStates s))
    | false =>
      exact hneg s rest h (drain_induction hnil hpos hneg rest)
termination_by q => queueSize q
decreasing_by
  all_goals
    ((try rw [queueSize_append]);
     (have h1 : queueSize (childStates s) =
        Tree.size (TreeIterationState.tree s) - 1 := queueSize_children s);
     have h2 := size_pos (TreeIterationState.tree s);
     simp only [queueSize_cons];
     omega)

/-- Any property preserved from a yielded state to its enqueued children
holds at every state the traversal yields, given it holds on the initial
queue. -/
theorem drain_invariant {cond : α → Bool} (Inv : TreeIterationState α → Prop)
    (hstep : ∀ s, Inv s → cond (Tree.value (TreeIterationState.tree s)) = true →
      ∀ c ∈ childStates s, Inv c) :
    ∀ q, (∀ s ∈ q, Inv s) → ∀ s ∈ drain cond q, Inv s := by
  have hnil : (∀ s ∈ ([] : List (TreeIterationState α)), Inv s) →
      ∀ s ∈ drain cond [], Inv s := by
    intro _ s hs
    rw [drain_nil] at hs
    cases hs
  have hpos : ∀ s rest, cond (Tree.value (TreeIterationState.tree s)) = true →
      ((∀ x ∈ rest ++ childStates s, Inv x) →
        ∀ x ∈ drain cond (rest ++ childStates s), Inv x) →
      ((∀ x ∈ s :: rest, Inv x) → ∀ x ∈ drain cond (s :: rest), Inv x) := by
    intro s rest hcond ih hq x hx
    rw [drain_cons_pos hcond] at hx
    rcases List.mem_cons.mp hx with rfl | hx'
    · exact hq x (List.mem_cons_self x rest)
    · refine ih ?_ x hx'
      intro y hy
      rcases List.mem_append.mp hy with hy' | hy'
      · exact hq y (List.mem_cons_of_mem s hy')
      · exact hstep s (hq s (List.mem_cons_self s rest)) hcond y hy'
  have hneg : ∀ s rest, cond (Tree.value (TreeIterationState.tree s)) = false →
      ((∀ x ∈ rest, Inv x) → ∀ x ∈ drain cond rest, Inv x) →
      ((∀ x ∈ s :: rest, Inv x) → ∀ x ∈ drain cond (s :: rest), Inv x) := by
    intro s rest hcond ih hq x hx
    rw [drain_cons_neg hcond] at hx
    exact ih (fun y hy => hq y (List.mem_cons_of_mem s hy)) x hx
  exact drain_induction
    (motive := fun q => (∀ s ∈ q, Inv s) → ∀ s ∈ drain cond q, Inv s)
    hnil hpos hneg

end TreeIterator

/-- Chain validity: the state's parent chain realizes an actual root-to-node
path of the tree `t` (the parentless state is the root; every other state's
tree is a child of its parent's tree). -/
def ValidFor {α : Type u} (t : Tree α) : TreeIterationState α → Prop
  | .mk tr none => tr = t
  | .mk tr (some p) =>
      tr ∈ Tree.children (TreeIterationState.tree p) ∧ ValidFor t p

/-- The chain of ancestor states, nearest parent first. -/
def ancStates {α : Type u} : TreeIterationState α → List (TreeIterationState α)
  | .mk _ none => []
  | .mk _ (some p) => p :: ancStates p

theorem path_to_root_eq_map {α : Type u} :
    ∀ s : TreeIterationState α,
      TreeIterationState.path_to_root s = (ancStates s).map TreeIterationState.tree
  | .mk _ none => rfl
  | .mk tr (some p) => by
    simp [TreeIterationState.path_to_root, ancStates, path_to_root_eq_map p]

/-- Positional order in a list: `a` occurs at a strictly earlier index than
`b`. -/
def Before {β : Type u} (l : List β) (a b : β) : Prop :=
  ∃ i j : Nat, i < j ∧ l[i]? = some a ∧ l[j]? = some b

/-- Subtree of `t` at a position given by a list of child indices. -/
def Tree.subtreeAt {α : Type u} : Tree α → List Nat → Option (Tree α)
  | t, [] => some t
  | t, i :: p =>
    match (Tree.children t)[i]? with
    | some c => Tree.subtreeAt c p
    | none => none

/-- Ancestors of the node of `t` at a position, nearest parent first (ending
with `t` itself for a non-root position). -/
def Tree.ancestorsAt {α : Type u} : Tree α → List Nat → List (Tree α)
  | _, [] => []
  | t, i :: p =>
    (match (Tree.children t)[i]? with
     | some c => Tree.ancestorsAt c p
     | none => []) ++ [t]

theorem subtreeAt_nil {α : Type u} (t : Tree α) : Tree.subtreeAt t [] = some t := rfl

theorem subtreeAt_cons {α : Type u} (t : Tree α) (i : Nat) (p : List Nat) :
    Tree.subtreeAt t (i :: p) =
      match (Tree.children t)[i]? with
      | some c => Tree.subtreeAt c p
      | none => none := rfl

theorem ancestorsAt_nil {α : Type u} (t : Tree α) : Tree.ancestorsAt t [] = [] := rfl

theorem ancestorsAt_cons {α : Type u} (t : Tree α) (i : Nat) (p : List Nat) :
    Tree.ancestorsAt t (i :: p) =
      (match (Tree.children t)[i]? with
       | some c => Tree.ancestorsAt c p
       | none => []) ++ [t] := rfl

theorem subtreeAt_snoc {α : Type u} :
    ∀ (pos : List Nat) (t u : Tree α) (i : Nat),
      Tree.subtreeAt t pos = some u →
      Tree.subtreeAt t (pos ++ [i]) = (Tree.children u)[i]? := by
  intro pos
  induction pos with
  | nil =>
    intro t u i h
    rw [subtreeAt_nil] at h
    obtain rfl : t = u := Option.some.inj h
    rw [List.nil_append, subtreeAt_cons]
    cases hg : (Tree.children t)[i]? with
    | none => simp
    | some c => simp [subtreeAt_nil]
  | cons j p ih =>
    intro t u i h
    rw [subtreeAt_cons] at h
    rw [List.cons_append, subtreeAt_cons]
    cases hg : (Tree.children t)[j]? with
    | none => rw [hg] at h; cases h
    | some c =>
      rw [hg] at h
      simpa using ih c u i h

theorem ancestorsAt_snoc {α : Type u} :
    ∀ (pos : List Nat) (t u c : Tree α) (i : Nat),
      Tree.subtreeAt t pos = some u → (Tree.children u)[i]? = some c →
      Tree.ancestorsAt t (pos ++ [i]) = u :: Tree.ancestorsAt t pos := by
  intro pos
  induction pos with
  | nil =>
    intro t u c i h hc
    rw [subtreeAt_nil] at h
    obtain rfl : t = u := Option.some.inj h
    rw [List.nil_append, ancestorsAt_cons, ancestorsAt_nil, hc]
    rfl
  | cons j p ih =>
    intro t u c i h hc
    rw [subtreeAt_cons] at h
    rw [List.cons_append, ancestorsAt_cons, ancestorsAt_cons]
    cases hg : (Tree.children t)[j]? with
    | none => rw [hg] at h; cases h
    | some c₀ =>
      rw [hg] at h
      simp only
      rw [ih c₀ u c i h hc]
      rfl

/-- A valid chain determines a position in the tree: the state's node is the
subtree at that position, its `path_to_root` is exactly the ancestor list at
that position, and the position's depth equals the path length. -/
theorem exists_pos_of_valid {α : Type u} (t : Tree α) :
    ∀ s : TreeIterationState α, ValidFor t s →
      ∃ pos : List Nat,
        Tree.subtreeAt t pos = some (TreeIterationState.tree s) ∧
        TreeIterationState.path_to_root s = Tree.ancestorsAt t pos ∧
        pos.length = (TreeIterationState.path_to_root s).length
  | .mk tr none, h => by
    have heq : tr = t := h
    subst heq
    exact ⟨[], rfl, rfl, rfl⟩
  | .mk tr (some p), h => by
    have h' : tr ∈ Tree.children (TreeIterationState.tree p) ∧ ValidFor t p := h
    obtain ⟨hmem, hvp⟩ := h'
    obtain ⟨pos, hsub, hpath, hlen⟩ := exists_pos_of_valid t p hvp
    obtain ⟨i, hi⟩ := List.getElem?_of_mem hmem
    refine ⟨pos ++ [i], ?_, ?_, ?_⟩
    · rw [subtreeAt_snoc pos t (TreeIterationState.tree p) i hsub]
      exact hi
    · rw [TreeIterationState.path_to_root_some, hpath,
        ancestorsAt_snoc pos t (TreeIterationState.tree p) tr i hsub hi]
    · rw [TreeIterationState.path_to_root_some]
      simp only [List.length_append, List.length_cons, List.length_nil]
      omega
termination_by s => sizeOf s
decreasing_by
  simp only [TreeIterationState.mk.sizeOf_spec, Option.some.sizeOf_spec]
  omega

/-- Every state yielded by the conditional traversal has a valid parent
chain. -/
theorem iter_condition_valid {α : Type u} (t : Tree α) (P : α → Bool) :
    ∀ s ∈ Tree.iter_condition t P, ValidFor t s := by
  have hstep : ∀ s, ValidFor t s →
      P (Tree.value (TreeIterationState.tree s)) = true →
      ∀ c ∈ TreeIterator.childStates s, ValidFor t c := by
    intro s hInv _ c hc
    simp only [TreeIterator.childStates, List.mem_map] at hc
    obtain ⟨c', hc', rfl⟩ := hc
    exact ⟨hc', hInv⟩
  unfold Tree.iter_condition
  cases hP : P (Tree.value t) with
  | false =>
    intro s hs
    rw [if_neg (by simp), TreeIterator.drain_nil] at hs
    cases hs
  | true =>
    intro s hs
    rw [if_pos rfl] at hs
    refine TreeIterator.drain_invariant (ValidFor t) hstep _ ?_ s hs
    intro x hx
    rcases List.mem_singleton.mp hx with rfl
    exact rfl

/-- Master ancestry lemma for `drain`: provided every queued state's recorded
ancestors already passed the condition and sit in the already-emitted `past`,
every yielded state passes the condition, and each of its recorded ancestors
passes the condition and occurs strictly earlier in `past ++ drain cond q`. -/
theorem drain_ancestry {α : Type u} (cond : α → Bool) :
    ∀ q past : List (TreeIterationState α),
      (∀ s ∈ q, ∀ a ∈ ancStates s,
        a ∈ past ∧ cond (Tree.value (TreeIterationState.tree a)) = true) →
      ∀ s ∈ TreeIterator.drain cond q,
        cond (Tree.value (TreeIterationState.tree s)) = true ∧
        ∀ a ∈ ancStates s,
          cond (Tree.value (TreeIterationState.tree a)) = true ∧
          Before (past ++ TreeIterator.drain cond q) a s := by
  refine @TreeIterator.drain_induction α cond
    (fun q => ∀ past : List (TreeIterationState α),
      (∀ s ∈ q, ∀ a ∈ ancStates s,
        a ∈ past ∧ cond (Tree.value (TreeIterationState.tree a)) = true) →
      ∀ s ∈ TreeIterator.drain cond q,
        cond (Tree.value (TreeIterationState.tree s)) = true ∧
        ∀ a ∈ ancStates s,
          cond (Tree.value (TreeIterationState.tree a)) = true ∧
          Before (past ++ TreeIterator.drain cond q) a s) ?_ ?_ ?_
  · intro past _ s hs
    rw [TreeIterator.drain_nil] at hs
    cases hs
  · intro s₀ rest hcond ih past hq s hs
    rw [TreeIterator.drain_cons_pos hcond] at hs ⊢
    have hlist : past ++ s₀ :: TreeIterator.drain cond (rest ++ TreeIterator.childStates s₀)
        = (past ++ [s₀]) ++ TreeIterator.drain cond (rest ++ TreeIterator.childStates s₀) := by
      rw [List.append_assoc, List.singleton_append]
    have hq' : ∀ x ∈ rest ++ TreeIterator.childStates s₀, ∀ a ∈ ancStates x,
        a ∈ past ++ [s₀] ∧ cond (Tree.value (TreeIterationState.tree a)) = true := by
      intro x hx a ha
      rcases List.mem_append.mp hx with hx' | hx'
      · obtain ⟨h1, h2⟩ := hq x (List.mem_cons_of_mem s₀ hx') a ha
        exact ⟨List.mem_append_left _ h1, h2⟩
      · simp only [TreeIterator.childStates, List.mem_map] at hx'
        obtain ⟨c', _, rfl⟩ := hx'
        rcases List.mem_cons.mp ha with rfl | ha'
        · exact ⟨List.mem_append_right _ (List.mem_singleton.mpr rfl), hcond⟩
        · obtain ⟨h1, h2⟩ := hq s₀ (List.mem_cons_self s₀ rest) a ha'
          exact ⟨List.mem_append_left _ h1, h2⟩
    rcases List.mem_cons.mp hs with rfl | hs'
    · refine ⟨hcond, ?_⟩
      intro a ha
      obtain ⟨hpast, hacond⟩ := hq s (List.mem_cons_self s rest) a ha
      refine ⟨hacond, ?_⟩
      obtain ⟨i, hi⟩ := List.getElem?_of_mem hpast
      have hilt : i < past.length := (List.getElem?_eq_some.mp hi).1
      refine ⟨i, past.length, hilt, ?_, ?_⟩
      · rw [List.getElem?_append_left hilt]
        exact hi
      · rw [List.getElem?_append_right (Nat.le_refl _)]
        simp
    · have hres := ih (past ++ [s₀]) hq' s hs'
      refine ⟨hres.1, ?_⟩
      intro a ha
      obtain ⟨h1, h2⟩ := hres.2 a ha
      refine ⟨h1, ?_⟩
      rw [hlist]
      exact h2
  · intro s₀ rest hcond ih past hq s hs
    rw [TreeIterator.drain_cons_neg hcond] at hs ⊢
    exact ih past (fun x hx => hq x (List.mem_cons_of_mem s₀ hx)) s hs

/-- Specification of the conditional traversal's yielded states: each passes
the condition, and each recorded ancestor passes the condition and was
yielded strictly earlier in the same output sequence. -/
theorem iter_condition_spec {α : Type u} (t : Tree α) (P : α → Bool) :
    ∀ s ∈ Tree.iter_condition t P,
      P (Tree.value (TreeIterationState.tree s)) = true ∧
      ∀ a ∈ ancStates s,
        P (Tree.value (TreeIterationState.tree a)) = true ∧
        Before (Tree.iter_condition t P) a s := by
  intro s hs
  have hinit : ∀ x ∈ (if P (Tree.value t) then [TreeIterationState.mk t none] else []),
      ∀ a ∈ ancStates x,
        a ∈ ([] : List (TreeIterationState α)) ∧
        P (Tree.value (TreeIterationState.tree a)) = true := by
    intro x hx a ha
    cases hP : P (Tree.value t) with
    | false => rw [hP] at hx; simp at hx
    | true =>
      rw [hP] at hx
      simp only [if_true, List.mem_singleton] at hx
      subst hx
      simp [ancStates] at ha
  have h := drain_ancestry P
    (if P (Tree.value t) then [TreeIterationState.mk t none] else []) [] hinit s hs
  refine ⟨h.1, ?_⟩
  intro a ha
  obtain ⟨h1, h2⟩ := h.2 a ha
  refine ⟨h1, ?_⟩
  rw [List.nil_append] at h2
  exact h2

@[simp] theorem sizeList_nil {α : Type u} : Tree.sizeList ([] : List (Tree α)) = 0 := rfl

@[simp] theorem sizeList_cons {α : Type u} (t : Tree α) (ts : List (Tree α)) :
    Tree.sizeList (t :: ts) = Tree.size t + Tree.sizeList ts := rfl

theorem sizeList_append {α : Type u} (a b : List (Tree α)) :
    Tree.sizeList (a ++ b) = Tree.sizeList a + Tree.sizeList b := by
  induction a with
  | nil => simp
  | cons t ts ih => simp [ih]; omega

theorem sizeList_flatMap_children {α : Type u} (q : List (Tree α)) :
    Tree.sizeList (q.flatMap Tree.children) + q.length = Tree.sizeList q := by
  induction q with
  | nil => simp
  | cons t q ih =>
    rw [List.flatMap_cons, sizeList_append]
    have := TreeIterator.size_eq t
    simp only [sizeList_cons, List.length_cons]
    omega

theorem sizeList_enqueue_lt {α : Type u} (t : Tree α) (q : List (Tree α)) :
    Tree.sizeList (q ++ Tree.children t) < Tree.sizeList (t :: q) := by
  rw [sizeList_append]
  have h1 := TreeIterator.size_eq t
  simp only [sizeList_cons]
  omega

theorem sizeList_flatMap_lt {α : Type u} (t : Tree α) (q : List (Tree α)) :
    Tree.sizeList ((t :: q).flatMap Tree.children) < Tree.sizeList (t :: q) := by
  have := sizeList_flatMap_children (t :: q)
  simp only [List.length_cons] at this
  omega

/-- Queue-based breadth-first traversal of a forest, popping at the head and
pushing children at the tail, with no condition. -/
def bfsAux {α : Type u} : List (Tree α) → List (Tree α)
  | [] => []
  | t :: q => t :: bfsAux (q ++ Tree.children t)
termination_by l => Tree.sizeList l
decreasing_by
  exact sizeList_enqueue_lt _ _

theorem bfsAux_nil {α : Type u} : bfsAux ([] : List (Tree α)) = [] := by rw [bfsAux]

theorem bfsAux_cons {α : Type u} (t : Tree α) (q : List (Tree α)) :
    bfsAux (t :: q) = t :: bfsAux (q ++ Tree.children t) := by rw [bfsAux]

/-- Level order of a forest, written the way the specification describes
breadth-first order: the whole queue (one level, in stored order) is listed,
then the concatenation of all its children as the next level, and so on. -/
def levelOrder {α : Type u} : List (Tree α) → List (Tree α)
  | [] => []
  | t :: q => (t :: q) ++ levelOrder ((t :: q).flatMap Tree.children)
termination_by l => Tree.sizeList l
decreasing_by
  exact sizeList_flatMap_lt _ _

theorem levelOrder_nil {α : Type u} : levelOrder ([] : List (Tree α)) = [] := by
  rw [levelOrder]

theorem levelOrder_cons {α : Type u} (t : Tree α) (q : List (Tree α)) :
    levelOrder (t :: q) = (t :: q) ++ levelOrder ((t :: q).flatMap Tree.children) := by
  rw [levelOrder]

theorem bfsAux_append {α : Type u} (q₁ : List (Tree α)) :
    ∀ q₂, bfsAux (q₁ ++ q₂) = q₁ ++ bfsAux (q₂ ++ q₁.flatMap Tree.children) := by
  induction q₁ with
  | nil => intro q₂; simp
  | cons t q₁ ih =>
    intro q₂
    calc bfsAux ((t :: q₁) ++ q₂)
        = bfsAux (t :: (q₁ ++ q₂)) := by rw [List.cons_append]
      _ = t :: bfsAux ((q₁ ++ q₂) ++ Tree.children t) := bfsAux_cons _ _
      _ = t :: bfsAux (q₁ ++ (q₂ ++ Tree.children t)) := by rw [List.append_assoc]
      _ = t :: (q₁ ++ bfsAux ((q₂ ++ Tree.children t) ++ q₁.flatMap Tree.children)) := by
          rw [ih]
      _ = t :: (q₁ ++ bfsAux (q₂ ++ (Tree.children t ++ q₁.flatMap Tree.children))) := by
          rw [List.append_assoc]
      _ = (t :: q₁) ++ bfsAux (q₂ ++ (t :: q₁).flatMap Tree.children) := by
          rw [List.flatMap_cons, List.cons_append]

theorem bfsAux_eq_self_append {α : Type u} (q : List (Tree α)) :
    bfsAux q = q ++ bfsAux (q.flatMap Tree.children) := by
  have h := bfsAux_append q []
  simpa using h

theorem bfsAux_eq_levelOrder {α : Type u} : ∀ q : List (Tree α), bfsAux q = levelOrder q
  | [] => by rw [bfsAux_nil, levelOrder_nil]
  | t :: q => by
    have ih := bfsAux_eq_levelOrder ((t :: q).flatMap Tree.children)
    rw [bfsAux_eq_self_append (t :: q), ih]
    conv_rhs => rw [levelOrder_cons]
termination_by l => Tree.sizeList l
decreasing_by
  exact sizeList_flatMap_lt _ _

theorem childStates_map_tree {α : Type u} (s : TreeIterationState α) :
    (TreeIterator.childStates s).map TreeIterationState.tree
      = Tree.children (TreeIterationState.tree s) := by
  simp [TreeIterator.childStates, List.map_map, Function.comp_def]

/-- With the always-true condition, draining the iterator visits exactly the
plain queue-based breadth-first traversal of the queued trees. -/
theorem drain_true_map {α : Type u} :
    ∀ q : List (TreeIterationState α),
      (TreeIterator.drain (fun _ => true) q).map TreeIterationState.tree
        = bfsAux (q.map TreeIterationState.tree) := by
  have hnil : (TreeIterator.drain (fun _ => true)
        ([] : List (TreeIterationState α))).map TreeIterationState.tree
      = bfsAux (([] : List (TreeIterationState α)).map TreeIterationState.tree) := by
    rw [TreeIterator.drain_nil]
    simp [bfsAux_nil]
  have hpos : ∀ (s : TreeIterationState α) rest,
      (fun _ => true) (Tree.value (TreeIterationState.tree s)) = true →
      ((TreeIterator.drain (fun _ => true)
          (rest ++ TreeIterator.childStates s)).map TreeIterationState.tree
        = bfsAux ((rest ++ TreeIterator.childStates s).map TreeIterationState.tree)) →
      ((TreeIterator.drain (fun _ => true) (s :: rest)).map TreeIterationState.tree
        = bfsAux ((s :: rest).map TreeIterationState.tree)) := by
    intro s rest hcond ih
    rw [TreeIterator.drain_cons_pos hcond]
    rw [List.map_cons, ih, List.map_cons, bfsAux_cons, List.map_append,
      childStates_map_tree]
  have hneg : ∀ (s : TreeIterationState α) rest,
      (fun _ => true) (Tree.value (TreeIterationState.tree s)) = false →
      ((TreeIterator.drain (fun _ => true) rest).map TreeIterationState.tree
        = bfsAux (rest.map TreeIterationState.tree)) →
      ((TreeIterator.drain (fun _ => true) (s :: rest)).map TreeIterationState.tree
        = bfsAux ((s :: rest).map TreeIterationState.tree)) := by
    intro s rest hcond _
    simp at hcond
  exact @TreeIterator.drain_induction α (fun _ => true)
    (fun q =>
      (TreeIterator.drain (fun _ => true) q).map TreeIterationState.tree
        = bfsAux (q.map TreeIterationState.tree))
    hnil hpos hneg

theorem nodesList_eq_flatMap {α : Type u} (q : List (Tree α)) :
    Tree.nodesList q = q.flatMap Tree.nodes := by
  induction q with
  | nil => simp [Tree.nodesList]
  | cons t q ih => rw [List.flatMap_cons]; simp [Tree.nodesList, ih]

theorem nodes_eq {α : Type u} (t : Tree α) :
    Tree.nodes t = t :: (Tree.children t).flatMap Tree.nodes := by
  cases t with
  | mk v cs => simp [Tree.nodes, nodesList_eq_flatMap]

theorem flatMap_nodes_perm {α : Type u} (q : List (Tree α)) :
    List.Perm (q.flatMap Tree.nodes)
      (q ++ (q.flatMap Tree.children).flatMap Tree.nodes) := by
  induction q with
  | nil => simp
  | cons t q ih =>
    rw [List.flatMap_cons, nodes_eq t, List.flatMap_cons, List.flatMap_append,
      List.cons_append, List.cons_append]
    refine List.Perm.cons t ?_
    have h1 : List.Perm
        ((Tree.children t).flatMap Tree.nodes ++ q.flatMap Tree.nodes)
        ((Tree.children t).flatMap Tree.nodes ++
          (q ++ (q.flatMap Tree.children).flatMap Tree.nodes)) :=
      List.Perm.append_left _ ih
    have h2 : List.Perm
        (((Tree.children t).flatMap Tree.nodes ++ q) ++
          (q.flatMap Tree.children).flatMap Tree.nodes)
        ((q ++ (Tree.children t).flatMap Tree.nodes) ++
          (q.flatMap Tree.children).flatMap Tree.nodes) :=
      List.Perm.append_right _ List.perm_append_comm
    rw [List.append_assoc, List.append_assoc] at h2
    exact h1.trans h2

theorem bfsAux_perm_nodesList {α : Type u} :
    ∀ q : List (Tree α), List.Perm (bfsAux q) (Tree.nodesList q)
  | [] => by rw [bfsAux_nil]; simp [Tree.nodesList]
  | t :: q => by
    have ih := bfsAux_perm_nodesList ((t :: q).flatMap Tree.children)
    rw [bfsAux_eq_self_append (t :: q), nodesList_eq_flatMap]
    rw [nodesList_eq_flatMap] at ih
    exact (List.Perm.append_left _ ih).trans (flatMap_nodes_perm (t :: q)).symm
termination_by l => Tree.sizeList l
decreasing_by
  exact sizeList_flatMap_lt _ _

/-- Rust `Tree::has_prefix` of tree.rs: candidate values must agree with the
pattern value; an exhausted pattern (no children) matches; otherwise the
nested loops over `self.children` and `other.children` succeed as soon as
any candidate child has any pattern child as prefix. -/
def Tree.has_prefix {α : Type u} [DecidableEq α] : Tree α → Tree α → Bool
  | .mk v cs, .mk w ps =>
    if v ≠ w then false
    else if ps.isEmpty then true
    else cs.attach.any fun c => ps.attach.any fun p => Tree.has_prefix c.1 p.1
termination_by s o => sizeOf s + sizeOf o
decreasing_by
  have hc := List.sizeOf_lt_of_mem c.2
  have hp := List.sizeOf_lt_of_mem p.2
  simp only [Tree.mk.sizeOf_spec]
  omega

theorem any_attach {β : Type u} (l : List β) (f : β → Bool) :
    (l.attach.any fun x => f x.1) = l.any f := by
  cases ha : l.any f with
  | true =>
    rw [List.any_eq_true] at ha
    obtain ⟨y, hy, hf⟩ := ha
    rw [List.any_eq_true]
    exact ⟨⟨y, hy⟩, List.mem_attach l ⟨y, hy⟩, hf⟩
  | false =>
    rw [List.any_eq_false] at ha
    rw [List.any_eq_false]
    intro x _
    exact ha x.1 x.2

/-- Unfolding equation for ` Tree.has_prefix` with the `attach`s removed. -/
theorem has_prefix_unfold {α : Type u} [DecidableEq α] (v w : α)
    (cs ps : List (Tree α)) :
    Tree.has_prefix (Tree.mk v cs) (Tree.mk w ps) =
      (if v ≠ w then false
       else if ps.isEmpty then true
       else cs.any fun c => ps.any fun p => Tree.has_prefix c p) := by
  have hinner : ∀ c : Tree α, (ps.attach.any fun p => Tree.has_prefix c p.1)
      = ps.any fun p => Tree.has_prefix c p := fun c => any_attach ps _
  have houter : (cs.attach.any fun c => ps.attach.any fun p => Tree.has_prefix c.1 p.1)
      = cs.any fun c => ps.any fun p => Tree.has_prefix c p := by
    calc (cs.attach.any fun c => ps.attach.any fun p => Tree.has_prefix c.1 p.1)
        = cs.any fun c => ps.attach.any fun p => Tree.has_prefix c p.1 :=
          any_attach cs (fun c => ps.attach.any fun p => Tree.has_prefix c p.1)
      _ = cs.any fun c => ps.any fun p => Tree.has_prefix c p := by
          simp only [hinner]
  rw [ Tree.has_prefix, houter]

/-- Rust `Relationship` of graph.rs. -/
inductive Relationship : Type where
  | OneToOne
  | OneToMany
  | ManyToOne
  | ManyToMany
deriving DecidableEq

namespace Relationship

/-- Rust `Relationship::invert` of graph.rs. -/
def invert : Relationship → Relationship
  | OneToOne => OneToOne
  | OneToMany => ManyToOne
  | ManyToOne => OneToMany
  | ManyToMany => ManyToMany

end Relationship

/-- Rust `Target<T>` of graph.rs. -/
structure Target (α : Type u) : Type u where
  typ : α
  rel : Relationship

/-- Rust `Node<T>` of graph.rs. -/
structure Node (α : Type u) : Type u where
  typ : α
  targets : List (Target α)

/-- Rust `Graph<T>` of graph.rs. -/
structure Graph (α : Type u) : Type u where
  nodes : List (Node α)

/-- Rust `Link<'a, T>` of graph.rs (references modelled as values). -/
structure Link (α : Type u) : Type u where
  from_ : α
  to_ : α
  rel : Relationship

namespace Graph

variable {α : Type u}

/-- Rust `Graph::links` of graph.rs: flat-map every node to one `Link` per
target, in node order then target order. -/
def links (g : Graph α) : List (Link α) :=
  g.nodes.flatMap (fun n => n.targets.map (fun t => Link.mk n.typ t.typ t.rel))

end Graph

/-! ## Concrete inputs used by witnesses -/

/-- A small concrete tree over `Nat`: root 0 with children 1 (child 3) and 2. -/
def exTree : Tree Nat := Tree.mk 0 [Tree.mk 1 [Tree.mk 3 []], Tree.mk 2 []]

/-- A concrete predicate: values below 2 pass. -/
def exP : Nat → Bool := fun v => decide (v < 2)

/-- The root state of the traversal of `exTree`. -/
def exS0 : TreeIterationState Nat := TreeIterationState.mk exTree none

/-- The state for the first child of `exTree`. -/
def exS1 : TreeIterationState Nat :=
  TreeIterationState.mk (Tree.mk 1 [Tree.mk 3 []]) (some exS0)

/-- The state for the second child of `exTree`. -/
def exS2 : TreeIterationState Nat := TreeIterationState.mk (Tree.mk 2 []) (some exS0)

/-- The state for the grandchild of `exTree`. -/
def exS3 : TreeIterationState Nat := TreeIterationState.mk (Tree.mk 3 []) (some exS1)

/-- Concrete run: the conditional traversal of `exTree` under `exP` yields the
root state and the first-child state, pruning the failing child 2 and the
failing grandchild 3. -/
theorem iter_exP_eq : Tree.iter_condition exTree exP = [exS0, exS1] := by
  have h0 : Tree.iter_condition exTree exP = TreeIterator.drain exP [exS0] := rfl
  rw [h0]
  rw [@TreeIterator.drain_cons_pos Nat exP exS0 [] rfl]
  have e1 : ([] : List (TreeIterationState Nat)) ++ TreeIterator.childStates exS0
      = [exS1, exS2] := rfl
  rw [e1]
  rw [@TreeIterator.drain_cons_pos Nat exP exS1 [exS2] rfl]
  have e2 : [exS2] ++ TreeIterator.childStates exS1 = [exS2, exS3] := rfl
  rw [e2]
  rw [@TreeIterator.drain_cons_neg Nat exP exS2 [exS3] rfl]
  rw [@TreeIterator.drain_cons_neg Nat exP exS3 [] rfl]
  rw [TreeIterator.drain_nil]

/-! ## Claim theorems -/

/-- C1: the traversal with the always-true predicate yields every node of the
tree exactly once (its node sequence is a permutation of the node list), in
breadth-first order with children in stored order (its node sequence is
exactly the level order of the tree: all nodes at depth d, left to right,
before all nodes at depth d + 1). -/
theorem c1_breadth_first {α : Type u} (t : Tree α) :
    (Tree.iter t).map TreeIterationState.tree = levelOrder [t] ∧
    List.Perm ((Tree.iter t).map TreeIterationState.tree) (Tree.nodes t) := by
  have h1 : Tree.iter t
      = TreeIterator.drain (fun _ => true) [TreeIterationState.mk t none] := rfl
  have h0 : (Tree.iter t).map TreeIterationState.tree = bfsAux [t] := by
    rw [h1, drain_true_map]
    rfl
  constructor
  · rw [h0, bfsAux_eq_levelOrder]
  · rw [h0]
    have h2 := bfsAux_perm_nodesList [t]
    simpa [Tree.nodesList] using h2

/-- C2: barrier pruning: if a node `n` fails the predicate then no yielded
state is at `n`, and no yielded state has `n` anywhere on its realized
ancestor path — so no descendant occurrence of `n` is ever yielded. -/
theorem c2_barrier_pruning {α : Type u} (t : Tree α) (P : α → Bool) (n : Tree α)
    (hn : P (Tree.value n) = false) :
    ∀ s ∈ Tree.iter_condition t P,
      TreeIterationState.tree s ≠ n ∧ n ∉ TreeIterationState.path_to_root s := by
  intro s hs
  obtain ⟨hself, hanc⟩ := iter_condition_spec t P s hs
  constructor
  · intro heq
    rw [heq] at hself
    rw [hself] at hn
    cases hn
  · intro hmem
    rw [path_to_root_eq_map] at hmem
    obtain ⟨a, ha, hae⟩ := List.mem_map.mp hmem
    obtain ⟨hacond, -⟩ := hanc a ha
    rw [hae] at hacond
    rw [hacond] at hn
    cases hn

/-- Witness for C2 at the concrete tree, predicate and failing node 2. -/
theorem c2_barrier_pruning_witness :
    exP (Tree.value (Tree.mk 2 [])) = false ∧
    exS0 ∈ Tree.iter_condition exTree exP ∧
    (TreeIterationState.tree exS0 ≠ Tree.mk 2 [] ∧
      Tree.mk 2 [] ∉ TreeIterationState.path_to_root exS0) :=
  ⟨rfl, by rw [iter_exP_eq]; exact List.mem_cons_self _ _,
    c2_barrier_pruning exTree exP (Tree.mk 2 []) rfl exS0
      (by rw [iter_exP_eq]; exact List.mem_cons_self _ _)⟩

/-- C4: every yielded state sits at a position of the tree, and its
`path_to_root` (a pure function of the retained state, independent of the
live queue) is exactly the ancestor list of that position: one entry per
depth level, nearest parent first, ending with the root. -/
theorem c4_path_to_root {α : Type u} (t : Tree α) (P : α → Bool)
    (s : TreeIterationState α) (hs : s ∈ Tree.iter_condition t P) :
    ∃ pos : List Nat,
      Tree.subtreeAt t pos = some (TreeIterationState.tree s) ∧
      TreeIterationState.path_to_root s = Tree.ancestorsAt t pos ∧
      pos.length = (TreeIterationState.path_to_root s).length ∧
      (pos ≠ [] → (TreeIterationState.path_to_root s).getLast? = some t) := by
  have hval := iter_condition_valid t P s hs
  obtain ⟨pos, h1, h2, h3⟩ := exists_pos_of_valid t s hval
  refine ⟨pos, h1, h2, h3, ?_⟩
  intro hne
  rw [h2]
  cases pos with
  | nil => exact absurd rfl hne
  | cons i p =>
    rw [ancestorsAt_cons]
    exact List.getLast?_concat _

/-- Witness for C4 at the concrete tree and the yielded child state. -/
theorem c4_path_to_root_witness :
    exS1 ∈ Tree.iter_condition exTree exP ∧
    ∃ pos : List Nat,
      Tree.subtreeAt exTree pos = some (TreeIterationState.tree exS1) ∧
      TreeIterationState.path_to_root exS1 = Tree.ancestorsAt exTree pos ∧
      pos.length = (TreeIterationState.path_to_root exS1).length ∧
      (pos ≠ [] → (TreeIterationState.path_to_root exS1).getLast? = some exTree) :=
  ⟨by rw [iter_exP_eq]; exact List.mem_cons_of_mem _ (List.mem_cons_self _ _),
    c4_path_to_root exTree exP exS1
      (by rw [iter_exP_eq]; exact List.mem_cons_of_mem _ (List.mem_cons_self _ _))⟩

/-- C9: yielded states form a predicate-closed ancestry: each yielded state
passes the predicate at its own node, its `path_to_root` is exactly the trees
of its recorded ancestor states, each of those passes the predicate, and each
ancestor state was itself yielded strictly earlier in the same sequence. -/
theorem c9_predicate_closed_ancestry {α : Type u} (t : Tree α) (P : α → Bool)
    (s : TreeIterationState α) (hs : s ∈ Tree.iter_condition t P) :
    P (Tree.value (TreeIterationState.tree s)) = true ∧
    TreeIterationState.path_to_root s = (ancStates s).map TreeIterationState.tree ∧
    (∀ a ∈ TreeIterationState.path_to_root s, P (Tree.value a) = true) ∧
    (∀ a ∈ ancStates s, a ∈ Tree.iter_condition t P ∧
      Before (Tree.iter_condition t P) a s) := by
  obtain ⟨hself, hanc⟩ := iter_condition_spec t P s hs
  refine ⟨hself, path_to_root_eq_map s, ?_, ?_⟩
  · intro a ha
    rw [path_to_root_eq_map] at ha
    obtain ⟨a', ha', rfl⟩ := List.mem_map.mp ha
    exact (hanc a' ha').1
  · intro a ha
    obtain ⟨-, hb⟩ := hanc a ha
    refine ⟨?_, hb⟩
    obtain ⟨i, j, hij, hi, hj⟩ := hb
    exact List.getElem?_mem hi

/-- Witness for C9 at the concrete tree and the yielded child state. -/
theorem c9_predicate_closed_ancestry_witness :
    exS1 ∈ Tree.iter_condition exTree exP ∧
    (exP (Tree.value (TreeIterationState.tree exS1)) = true ∧
      TreeIterationState.path_to_root exS1
        = (ancStates exS1).map TreeIterationState.tree ∧
      (∀ a ∈ TreeIterationState.path_to_root exS1, exP (Tree.value a) = true) ∧
      (∀ a ∈ ancStates exS1, a ∈ Tree.iter_condition exTree exP ∧
        Before (Tree.iter_condition exTree exP) a exS1)) :=
  ⟨by rw [iter_exP_eq]; exact List.mem_cons_of_mem _ (List.mem_cons_self _ _),
    c9_predicate_closed_ancestry exTree exP exS1
      (by rw [iter_exP_eq]; exact List.mem_cons_of_mem _ (List.mem_cons_self _ _))⟩

/-! ## Remaining claim theorems -/

/-- C3: `has_prefix(candidate, pattern)` is true iff the recursive rule
holds: false when the values differ, true when the values agree and the
pattern has no children, and otherwise true exactly when some candidate
child and some pattern child are recursively in the prefix relation. -/
theorem c3_has_prefix_rule {α : Type u} [DecidableEq α] (s o : Tree α) :
    ( Tree.has_prefix s o = true ↔
      (Tree.value s = Tree.value o ∧
        (Tree.children o = [] ∨
          ∃ c ∈ Tree.children s, ∃ p ∈ Tree.children o,
            Tree.has_prefix c p = true))) := by
  cases s with
  | mk v cs =>
    cases o with
    | mk w ps =>
      rw [has_prefix_unfold]
      simp only [Tree.value_mk, Tree.children_mk]
      by_cases hvw : v = w
      · subst hvw
        cases ps with
        | nil => simp
        | cons p₀ ps' => simp [List.any_eq_true]
      · simp [hvw]

/-- C10: `has_prefix` is reflexive: every tree is a prefix of itself,
whatever its shape. -/
theorem c10_has_prefix_refl {α : Type u} [DecidableEq α] :
    ∀ t : Tree α, Tree.has_prefix t t = true
  | .mk v [] => by rw [has_prefix_unfold]; simp
  | .mk v (c :: cs') => by
    have ih := c10_has_prefix_refl c
    rw [has_prefix_unfold]
    rw [if_neg (by simp)]
    rw [if_neg (by simp)]
    rw [List.any_eq_true]
    exact ⟨c, List.mem_cons_self c cs',
      by rw [List.any_eq_true]; exact ⟨c, List.mem_cons_self c cs', ih⟩⟩
termination_by t => sizeOf t
decreasing_by simp only [Tree.mk.sizeOf_spec, List.cons.sizeOf_spec]; omega

/-- C5: `links(graph)` returns one `Link` per (node, target) pair: its length
is the sum of `targets.len()` over all nodes, links appear in node-major,
target-minor order (the flatten of the per-node rows of links built from the
node's `typ`, each target's `typ` and `rel`), and every (node, target) pair
contributes its link, including targets whose `typ` matches no node (no
filtering occurs). -/
theorem c5_links {α : Type u} (g : Graph α) :
    (Graph.links g).length = (g.nodes.map (fun n => n.targets.length)).sum ∧
    Graph.links g =
      (g.nodes.map
        (fun n => n.targets.map (fun t => Link.mk n.typ t.typ t.rel))).flatten ∧
    ∀ n ∈ g.nodes, ∀ t ∈ n.targets, Link.mk n.typ t.typ t.rel ∈ Graph.links g := by
  refine ⟨?_, ?_, ?_⟩
  · simp [Graph.links, Function.comp_def]
  · simp [Graph.links, List.flatMap_def]
  · intro n hn t ht
    simp only [Graph.links, List.mem_flatMap, List.mem_map]
    exact ⟨n, hn, t, ht, rfl⟩

/-- C6: `Relationship::invert` maps OneToOne and ManyToMany to themselves,
swaps OneToMany and ManyToOne, and is an involution. -/
theorem c6_invert_involution :
    Relationship.invert .OneToOne = .OneToOne ∧
    Relationship.invert .ManyToMany = .ManyToMany ∧
    Relationship.invert .OneToMany = .ManyToOne ∧
    Relationship.invert .ManyToOne = .OneToMany ∧
    ∀ r : Relationship, Relationship.invert (Relationship.invert r) = r :=
  ⟨rfl, rfl, rfl, rfl, fun r => by cases r <;> rfl⟩

/-- C7: if the root's value fails the predicate, the conditional traversal
yields the empty sequence (the queue is never seeded, so no node at all is
visited); the constantly-false predicate is the special case. -/
theorem c7_root_fails {α : Type u} (t : Tree α) (P : α → Bool)
    (h : P (Tree.value t) = false) : Tree.iter_condition t P = [] := by
  simp [Tree.iter_condition, h]

/-- Witness for C7 at a concrete tree and predicate. -/
theorem c7_root_fails_witness :
    (fun v => decide (0 < v)) (Tree.value exTree) = false ∧
    Tree.iter_condition exTree (fun v => decide (0 < v)) = [] :=
  ⟨rfl, c7_root_fails exTree (fun v => decide (0 < v)) rfl⟩

/-- C8: the traversal is a total function (the iterator terminates: `next` on
an exhausted queue returns `none`, and the modelled run `drain` is a
well-founded recursion), and the number of yielded states is at most the
number of nodes of the tree. -/
theorem c8_termination_bound {α : Type u} (t : Tree α) (P : α → Bool) :
    (Tree.iter_condition t P).length ≤ Tree.size t ∧
    TreeIterator.next P ([] : List (TreeIterationState α)) = none := by
  refine ⟨?_, rfl⟩
  unfold Tree.iter_condition
  cases h : P (Tree.value t) with
  | false => simp
  | true =>
    simp only [if_true]
    have hb := TreeIterator.drain_length P [TreeIterationState.mk t none]
    simpa [TreeIterator.queueSize] using hb

end RouterLib
